import Mathlib

/-!
Shallow embedding of `src/preprocessing.py` (a small data-preprocessing
library) and proofs about it.

Modelling conventions:
* Python scalar values are the inductive type `PyVal`: `None`, `int`,
  `float` (modelled as an exact rational; every numeric computation a claim
  relies on is exact in IEEE double as well), the float `nan` (kept as a
  separate constructor since `nan` compares unequal to everything),
  strings, lists and tuples.
* Python `==` is the function `pyEq` (numeric cross-type equality between
  `int` and `float`, `nan` equal to nothing, element-wise equality on
  lists and tuples, `False` across different kinds).
* Fallible Python code is embedded in `Except PyErr`; an uncaught Python
  exception is `Except.error`.
-/

inductive PyErr where
  | typeError
  | valueError
  | zeroDivisionError
  deriving DecidableEq, Repr

inductive PyVal where
  | none : PyVal
  | int (n : ℤ) : PyVal
  | float (q : ℚ) : PyVal
  | nan : PyVal
  | str (s : String) : PyVal
  | list (l : List PyVal) : PyVal
  | tuple (l : List PyVal) : PyVal
  deriving Repr

mutual

/-- Python `==` on embedded values: `int`/`float` compare numerically,
`nan` is unequal to everything (itself included), lists and tuples compare
element-wise against the same kind, and values of different kinds are
unequal. -/
def pyEq : PyVal → PyVal → Bool
  | .none, .none => true
  | .int a, .int b => a == b
  | .int a, .float b => (a : ℚ) == b
  | .float a, .int b => a == (b : ℚ)
  | .float a, .float b => a == b
  | .str a, .str b => a == b
  | .list a, .list b => pyEqList a b
  | .tuple a, .tuple b => pyEqList a b
  | _, _ => false

/-- Element-wise Python `==` on lists of values. -/
def pyEqList : List PyVal → List PyVal → Bool
  | [], [] => true
  | a :: as, b :: bs => pyEq a b && pyEqList as bs
  | _, _ => false

end

/-- Python `math.isnan`: `True` exactly on the nan float, `False` on other
numbers, and a `TypeError` on non-numeric values. -/
def mathIsnan : PyVal → Except PyErr Bool
  | .int _ => .ok false
  | .float _ => .ok false
  | .nan => .ok true
  | _ => .error .typeError

/-- Python `is None` (an identity test against the `None` singleton). -/
def pyIsNone : PyVal → Bool
  | .none => true
  | _ => false

/-- One loop iteration of `fill_missing_values`: the `try: math.isnan`
block appends `fill_val` when it returns `True`; on `False` or on a
`TypeError` control falls through to the `value is None or value == ""`
check. -/
def fillOne (fill_val : PyVal) (value : PyVal) : PyVal :=
  match mathIsnan value with
  | .ok true => fill_val
  | _ => if pyIsNone value || pyEq value (.str "") then fill_val else value

/-- `fill_missing_values(values, fill_val=0)` from `preprocessing.py`. -/
def fill_missing_values (values : List PyVal) (fill_val : PyVal := .int 0) :
    List PyVal :=
  values.map (fillOne fill_val)

/-- A missing element in the sense of the specification: the absence
marker, the empty string, or a not-a-number float. -/
def isMissing : PyVal → Bool
  | .none => true
  | .nan => true
  | .str s => s == ""
  | _ => false

theorem fillOne_eq (x v : PyVal) :
    fillOne x v = if isMissing v then x else v := by
  cases v <;> simp [fillOne, mathIsnan, isMissing, pyEq, pyIsNone]

/-- C4: `fill_missing_values(v, x)` returns a list of the same length as
`v` in which each missing element (`None`, empty string, nan) is replaced
by `x` and every other element passes through unchanged at the same
position. -/
theorem fill_missing_values_spec (values : List PyVal) (x : PyVal) :
    (fill_missing_values values x).length = values.length ∧
      fill_missing_values values x =
        values.map (fun v => if isMissing v then x else v) := by
  refine ⟨List.length_map _ _, ?_⟩
  unfold fill_missing_values
  exact List.map_congr_left fun v _ => fillOne_eq x v

/-- `unique_values(values)` from `preprocessing.py`: a left fold over the
input that appends each element to the output exactly when it is not
already a member of the output (Python `value not in output`). Stated
generically over any type with decidable value equality (the fragment of
Python `==` the claims use is a decidable equivalence). -/
def unique_values {α : Type} [DecidableEq α] (values : List α) : List α :=
  values.foldl (fun output value => if value ∈ output then output else output ++ [value]) []

/-- Keeping the first occurrence of each value: the reference description
of deduplication in first-occurrence order. -/
def firstOccur {α : Type} [DecidableEq α] : List α → List α
  | [] => []
  | x :: xs => x :: (firstOccur xs).filter (fun y => y ≠ x)

theorem unique_values_foldl_eq {α : Type} [DecidableEq α] (vs out : List α) :
    vs.foldl (fun output value => if value ∈ output then output else output ++ [value]) out =
      out ++ (firstOccur vs).filter (fun y => y ∉ out) := by
  induction vs generalizing out with
  | nil => simp [firstOccur]
  | cons v vs ih =>
    simp only [List.foldl_cons, firstOccur, List.filter_cons]
    by_cases hv : v ∈ out
    · simp only [hv, if_pos, decide_not, List.filter_filter]
      rw [if_neg (by simp [hv]), ih]
      congr 1
      refine List.filter_congr fun y _ => ?_
      by_cases hy : y = v <;> simp [hy, hv]
    · rw [if_neg hv, if_pos (by simp [hv]), ih]
      simp only [List.append_assoc, List.singleton_append, decide_not, List.filter_filter]
      congr 2
      refine List.filter_congr fun y _ => ?_
      by_cases hy : y = v <;> simp [hy, hv]

theorem unique_values_eq_firstOccur {α : Type} [DecidableEq α] (values : List α) :
    unique_values values = firstOccur values := by
  rw [unique_values, unique_values_foldl_eq]
  simp

theorem mem_firstOccur {α : Type} [DecidableEq α] {x : α} {l : List α} :
    x ∈ firstOccur l ↔ x ∈ l := by
  induction l with
  | nil => simp [firstOccur]
  | cons a l ih =>
    simp only [firstOccur, List.mem_cons, List.mem_filter, ih]
    by_cases hx : x = a <;> simp [hx]

theorem nodup_firstOccur {α : Type} [DecidableEq α] (l : List α) :
    (firstOccur l).Nodup := by
  induction l with
  | nil => simp [firstOccur]
  | cons a l ih =>
    refine List.nodup_cons.2 ⟨?_, ih.filter _⟩
    simp

theorem firstOccur_of_nodup {α : Type} [DecidableEq α] {l : List α} (h : l.Nodup) :
    firstOccur l = l := by
  induction l with
  | nil => rfl
  | cons a l ih =>
    obtain ⟨ha, hl⟩ := List.nodup_cons.1 h
    rw [firstOccur, ih hl, List.filter_eq_self.2]
    intro y hy
    simp only [ne_eq, decide_eq_true_eq]
    exact fun hya => ha (hya ▸ hy)

theorem pairwise_indexOf_firstOccur {α : Type} [DecidableEq α] (l : List α) :
    (firstOccur l).Pairwise (fun a b => l.indexOf a < l.indexOf b) := by
  induction l with
  | nil => simp [firstOccur]
  | cons c l ih =>
    rw [firstOccur]
    refine List.pairwise_cons.2 ⟨?_, ?_⟩
    · intro b hb
      have hbc : b ≠ c := by
        have := (List.mem_filter.1 hb).2
        simpa using this
      rw [List.indexOf_cons_self, List.indexOf_cons_ne _ (fun h => hbc h.symm)]
      exact Nat.succ_pos _
    · have hp : (firstOccur l).Pairwise (fun a b => l.indexOf a < l.indexOf b) := ih
      have hf := hp.filter (fun y => y ≠ c)
      refine List.Pairwise.imp_of_mem ?_ hf
      intro a b ha hb hab
      have hac : a ≠ c := by simpa using (List.mem_filter.1 ha).2
      have hbc : b ≠ c := by simpa using (List.mem_filter.1 hb).2
      rw [List.indexOf_cons_ne _ (fun h => hac h.symm),
        List.indexOf_cons_ne _ (fun h => hbc h.symm)]
      exact Nat.succ_lt_succ hab

/-- C7: `unique_values(v)` contains each distinct value of `v` exactly
once (count one for members, zero otherwise), lists values in order of
first occurrence (its entries are pairwise ordered by their first index in
`v`), and `unique_values` is idempotent. -/
theorem unique_values_spec {α : Type} [DecidableEq α] (values : List α) :
    (∀ x : α, (unique_values values).count x = if x ∈ values then 1 else 0) ∧
      (unique_values values).Pairwise
        (fun a b => values.indexOf a < values.indexOf b) ∧
      unique_values (unique_values values) = unique_values values := by
  rw [unique_values_eq_firstOccur]
  refine ⟨?_, pairwise_indexOf_firstOccur values, ?_⟩
  · intro x
    by_cases hx : x ∈ values
    · rw [if_pos hx]
      exact List.count_eq_one_of_mem (nodup_firstOccur values) (mem_firstOccur.2 hx)
    · rw [if_neg hx, List.count_eq_zero]
      exact fun h => hx (mem_firstOccur.1 h)
  · rw [unique_values_eq_firstOccur,
      firstOccur_of_nodup (nodup_firstOccur values)]

theorem foldl_min_mem (rest : List ℚ) :
    ∀ a : ℚ, rest.foldl min a ∈ a :: rest := by
  induction rest with
  | nil => intro a; simp
  | cons b l ih =>
    intro a
    rw [List.foldl_cons]
    rcases List.mem_cons.1 (ih (min a b)) with h | h
    · rw [h]
      rcases min_choice a b with hm | hm <;> rw [hm] <;> simp
    · exact List.mem_cons_of_mem _ (List.mem_cons_of_mem _ h)

theorem foldl_min_le (rest : List ℚ) :
    ∀ a x : ℚ, x ∈ a :: rest → rest.foldl min a ≤ x := by
  induction rest with
  | nil => intro a x hx; simp_all
  | cons b l ih =>
    intro a x hx
    rw [List.foldl_cons]
    rcases List.mem_cons.1 hx with rfl | hx
    · exact le_trans (ih (min x b) (min x b) (by simp)) (min_le_left _ _)
    rcases List.mem_cons.1 hx with rfl | hx
    · exact le_trans (ih (min a x) (min a x) (by simp)) (min_le_right _ _)
    · exact ih (min a b) x (List.mem_cons_of_mem _ hx)

theorem foldl_max_mem (rest : List ℚ) :
    ∀ a : ℚ, rest.foldl max a ∈ a :: rest := by
  induction rest with
  | nil => intro a; simp
  | cons b l ih =>
    intro a
    rw [List.foldl_cons]
    rcases List.mem_cons.1 (ih (max a b)) with h | h
    · rw [h]
      rcases max_choice a b with hm | hm <;> rw [hm] <;> simp
    · exact List.mem_cons_of_mem _ (List.mem_cons_of_mem _ h)

theorem le_foldl_max (rest : List ℚ) :
    ∀ a x : ℚ, x ∈ a :: rest → x ≤ rest.foldl max a := by
  induction rest with
  | nil => intro a x hx; simp_all
  | cons b l ih =>
    intro a x hx
    rw [List.foldl_cons]
    rcases List.mem_cons.1 hx with rfl | hx
    · exact le_trans (le_max_left x b) (ih (max x b) (max x b) (by simp))
    rcases List.mem_cons.1 hx with rfl | hx
    · exact le_trans (le_max_right a x) (ih (max a x) (max a x) (by simp))
    · exact ih (max a b) x (List.mem_cons_of_mem _ hx)

/-- `min_max_normalization(values, min_range=0.0, max_range=1.0)` from
`preprocessing.py`. Python floats are modelled as exact rationals.
`min(values)`/`max(values)` on an empty list raise a `ValueError`; on a
non-empty list they are left folds of the binary `min`/`max`. The list
comprehension divides every element by the constant `v_max - v_min`, so
when that constant is zero the first iteration raises `ZeroDivisionError`
(Python raises on float division by zero); this is modelled by the hoisted
zero test. No exception handling appears in the source, so errors
propagate to the caller. -/
def min_max_normalization (values : List ℚ) (min_range : ℚ := 0)
    (max_range : ℚ := 1) : Except PyErr (List ℚ) :=
  match values with
  | [] => .error .valueError
  | v₀ :: rest =>
    let v_min := rest.foldl min v₀
    let v_max := rest.foldl max v₀
    if v_max - v_min = 0 then .error .zeroDivisionError
    else .ok ((v₀ :: rest).map fun v =>
      min_range + ((v - v_min) * (max_range - min_range)) / (v_max - v_min))

/-- C5: on every non-empty all-equal list, `min_max_normalization`
surfaces the division-by-zero fault to the caller and returns no value. -/
theorem min_max_normalization_all_equal (values : List ℚ) (c : ℚ)
    (lo hi : ℚ) (hne : values ≠ []) (hall : ∀ x ∈ values, x = c) :
    min_max_normalization values lo hi = .error .zeroDivisionError := by
  cases values with
  | nil => exact absurd rfl hne
  | cons v₀ rest =>
    have hmin : rest.foldl min v₀ = c := hall _ (foldl_min_mem rest v₀)
    have hmax : rest.foldl max v₀ = c := hall _ (foldl_max_mem rest v₀)
    simp [min_max_normalization, hmin, hmax]

theorem min_max_normalization_all_equal_witness :
    ([(2 : ℚ), 2] ≠ [] ∧ ∀ x ∈ [(2 : ℚ), 2], x = 2) ∧
      min_max_normalization [(2 : ℚ), 2] 0 1 = .error .zeroDivisionError := by
  refine ⟨⟨by decide, by decide⟩, ?_⟩
  exact min_max_normalization_all_equal [2, 2] 2 0 1 (by decide) (by decide)

/-- C6: on every list whose minimum `m` and maximum `M` differ (`m`, `M`
characterized as a least and a greatest member), `min_max_normalization`
maps each element `v` to `lo + (v - m) * (hi - lo) / (M - m)`. -/
theorem min_max_normalization_formula (values : List ℚ) (lo hi m M : ℚ)
    (hmem : m ∈ values) (hmin : ∀ x ∈ values, m ≤ x)
    (hMem : M ∈ values) (hmax : ∀ x ∈ values, x ≤ M) (hne : m ≠ M) :
    min_max_normalization values lo hi =
      .ok (values.map fun v => lo + ((v - m) * (hi - lo)) / (M - m)) := by
  cases values with
  | nil => simp at hmem
  | cons v₀ rest =>
    have h₁ : rest.foldl min v₀ = m := by
      refine le_antisymm (foldl_min_le rest v₀ m hmem) ?_
      exact hmin _ (foldl_min_mem rest v₀)
    have h₂ : rest.foldl max v₀ = M := by
      refine le_antisymm (hmax _ (foldl_max_mem rest v₀)) ?_
      exact le_foldl_max rest v₀ M hMem
    have h₃ : M - m ≠ 0 := sub_ne_zero.2 (Ne.symm hne)
    simp only [min_max_normalization, h₁, h₂]
    rw [if_neg h₃]

theorem min_max_normalization_formula_witness :
    ((1 : ℚ) ∈ [(1 : ℚ), 2, 3, 4, 5] ∧ (∀ x ∈ [(1 : ℚ), 2, 3, 4, 5], 1 ≤ x) ∧
      (5 : ℚ) ∈ [(1 : ℚ), 2, 3, 4, 5] ∧ (∀ x ∈ [(1 : ℚ), 2, 3, 4, 5], x ≤ 5) ∧
      (1 : ℚ) ≠ 5) ∧
      min_max_normalization [(1 : ℚ), 2, 3, 4, 5] 0 1 =
        .ok [0, 1/4, 1/2, 3/4, 1] := by
  refine ⟨⟨by decide, by decide, by decide, by decide, by decide⟩, ?_⟩
  rw [min_max_normalization_formula [1, 2, 3, 4, 5] 0 1 1 5 (by decide)
    (by decide) (by decide) (by decide) (by decide)]
  norm_num [List.map_cons, List.map_nil]

/-- `clipping(values, min_val, max_val)` from `preprocessing.py`:
`max(min(v, max_val), min_val)` for each element. -/
def clipping (values : List ℚ) (min_val max_val : ℚ) : List ℚ :=
  values.map fun v => max (min v max_val) min_val

/-- C9: when `min_val > max_val`, every element of the output of
`clipping` is `min_val`, because the upper bound is applied first (inner
`min`) and the lower bound last (outer `max`). -/
theorem clipping_crossed_bounds (values : List ℚ) (min_val max_val : ℚ)
    (h : max_val < min_val) :
    clipping values min_val max_val = values.map fun _ => min_val := by
  unfold clipping
  refine List.map_congr_left fun v _ => ?_
  exact max_eq_right (le_of_lt (lt_of_le_of_lt (min_le_right v max_val) h))

theorem clipping_crossed_bounds_witness :
    ((1 : ℚ) < 3) ∧ clipping [(5 : ℚ), 0] 3 1 = [3, 3] := by
  refine ⟨by decide, ?_⟩
  rw [clipping_crossed_bounds [5, 0] 3 1 (by decide)]
  decide

/-- ASCII whitespace stripped by Python `int(str)` (the model is
restricted to ASCII strings; Python also strips some Unicode spaces). -/
def pyIsSpace (c : Char) : Bool :=
  c = ' ' || c = '\t' || c = '\n' || c = '\x0d' || c = '\x0b' || c = '\x0c'

def isAsciiDigit (c : Char) : Bool :=
  '0' ≤ c && c ≤ '9'

/-- Continuation of a digit group in an integer literal: digits, with a
single underscore allowed between two digits (as in Python 3). Returns
the digits with underscores removed, or `none` on a malformed group. -/
def undDigits : List Char → Option (List Char)
  | [] => some []
  | '_' :: rest =>
    match rest with
    | c :: rest' =>
      if isAsciiDigit c then (undDigits rest').map (fun ds => c :: ds) else Option.none
    | [] => Option.none
  | c :: rest =>
    if isAsciiDigit c then (undDigits rest).map (fun ds => c :: ds) else Option.none

/-- Numeric value of a list of ASCII digits, most significant first. -/
def digitsVal (l : List Char) : ℤ :=
  l.foldl (fun acc c => acc * 10 + ((c.toNat : ℤ) - 48)) 0

/-- Unsigned part of a base-10 integer literal: at least one digit, then
`undDigits`. -/
def parseDigits : List Char → Option ℤ
  | c :: rest =>
    if isAsciiDigit c then (undDigits rest).map (fun ds => digitsVal (c :: ds))
    else Option.none
  | [] => Option.none

/-- Python `int(s)` for a string: strip surrounding whitespace, then an
optional sign followed by a base-10 digit sequence; `none` models the
`ValueError` raised on anything else. -/
def pyStrToInt (s : String) : Option ℤ :=
  let t := ((s.toList.dropWhile pyIsSpace).reverse.dropWhile pyIsSpace).reverse
  match t with
  | '+' :: rest => parseDigits rest
  | '-' :: rest => (parseDigits rest).map (fun n => -n)
  | rest => parseDigits rest

/-- Truncation toward zero of a rational, the behaviour of Python
`int(float)`. -/
def ratTrunc (q : ℚ) : ℤ :=
  q.num.tdiv (q.den : ℤ)

/-- Python `int(value)` on an embedded value: identity on `int`,
truncation toward zero on a finite `float`, a `ValueError` on the nan
float and on unparsable strings, base-10 parsing on strings, and a
`TypeError` on `None`, lists and tuples. -/
def pyInt : PyVal → Except PyErr ℤ
  | .int n => .ok n
  | .float q => .ok (ratTrunc q)
  | .nan => .error .valueError
  | .str s =>
    match pyStrToInt s with
    | some n => .ok n
    | Option.none => .error .valueError
  | .none => .error .typeError
  | .list _ => .error .typeError
  | .tuple _ => .error .typeError

/-- `convert_to_int(values)` from `preprocessing.py`: per element,
`int(value)` inside a `try` whose `except ValueError: continue` drops the
element; any other exception (e.g. the `TypeError` from `int(None)`) is
not caught and propagates, aborting the call. -/
def convert_to_int : List PyVal → Except PyErr (List ℤ)
  | [] => .ok []
  | v :: rest =>
    match pyInt v with
    | .ok n => (convert_to_int rest).map (fun l => n :: l)
    | .error .valueError => convert_to_int rest
    | .error e => .error e

/-- C2 counterexample: `convert_to_int([None, 1])` does not return a list
with the bad element dropped — `int(None)` raises a `TypeError` that the
`except ValueError` clause does not catch, so the call raises. -/
theorem convert_to_int_raises_counterexample :
    convert_to_int [PyVal.none, PyVal.int 1] = .error .typeError ∧
      ∀ l : List ℤ, convert_to_int [PyVal.none, PyVal.int 1] ≠ .ok l := by
  constructor
  · rfl
  · intro l h
    simp [convert_to_int, pyInt] at h

/-- Values whose conversion attempt can only succeed or raise a
`ValueError` (numbers, nan, strings) — as opposed to `None`, lists and
tuples, where `int()` raises a `TypeError`. -/
def intAttemptSafe : PyVal → Bool
  | .none => false
  | .list _ => false
  | .tuple _ => false
  | _ => true

theorem pyInt_safe_no_typeError {v : PyVal} (h : intAttemptSafe v = true) :
    pyInt v ≠ .error .typeError := by
  cases v <;> simp_all [intAttemptSafe, pyInt]
  case str s => cases pyStrToInt s <;> simp

/-- C2 (amended): when no element is of a type `int()` rejects outright
(`None`, list, tuple), `convert_to_int` never raises: it returns the list
of successful conversions in order, elements failing with `ValueError`
silently dropped, so the output may be shorter than the input. -/
theorem convert_to_int_drops_valueErrors (values : List PyVal)
    (h : ∀ v ∈ values, intAttemptSafe v = true) :
    convert_to_int values =
      .ok (values.filterMap (fun v => (pyInt v).toOption)) := by
  induction values with
  | nil => rfl
  | cons v rest ih =>
    have hv := h v (List.mem_cons_self v rest)
    have hrest := ih (fun w hw => h w (List.mem_cons_of_mem v hw))
    rw [List.filterMap_cons]
    cases hpy : pyInt v with
    | ok n => simp [convert_to_int, hpy, hrest, Except.toOption, Except.map]
    | error e =>
      cases e with
      | valueError => simp [convert_to_int, hpy, hrest, Except.toOption]
      | typeError => exact absurd hpy (pyInt_safe_no_typeError hv)
      | zeroDivisionError =>
        exfalso
        cases v <;> simp_all [intAttemptSafe, pyInt]
        case str s => cases hs : pyStrToInt s <;> simp [hs] at hpy

theorem convert_to_int_drops_valueErrors_witness :
    (∀ v ∈ [PyVal.str "1", PyVal.str "something", PyVal.str "3",
        PyVal.str "nothing", PyVal.str "5"], intAttemptSafe v = true) ∧
      convert_to_int [PyVal.str "1", PyVal.str "something", PyVal.str "3",
        PyVal.str "nothing", PyVal.str "5"] = .ok [1, 3, 5] := by
  constructor
  · decide
  · rw [convert_to_int_drops_valueErrors _ (by decide)]
    rfl

/-- `flatten_list(nested_list)` from `preprocessing.py`: for each item,
recurse when `isinstance(item, list)` and append the item itself
otherwise — tuples, strings and every other non-list value are leaves. -/
def flatten_list : List PyVal → List PyVal
  | [] => []
  | PyVal.list l :: rest => flatten_list l ++ flatten_list rest
  | v :: rest => v :: flatten_list rest

/-- Python `isinstance(item, list)` on an embedded value. -/
def pyIsList : PyVal → Bool
  | .list _ => true
  | _ => false

theorem flatten_list_append (a b : List PyVal) :
    flatten_list (a ++ b) = flatten_list a ++ flatten_list b := by
  induction a with
  | nil => simp [flatten_list]
  | cons v rest ih =>
    cases v <;> simp [flatten_list, ih]

/-- C10: `flatten_list` descends only into elements that are lists — an
element that is not a list (e.g. a tuple or a string) is appended to the
output as a single unchanged leaf, in its depth-first left-to-right
position. -/
theorem flatten_list_nonlist_leaf (pre post : List PyVal) (x : PyVal)
    (h : pyIsList x = false) :
    flatten_list (pre ++ x :: post) =
      flatten_list pre ++ x :: flatten_list post := by
  rw [flatten_list_append]
  cases x <;> simp_all [flatten_list, pyIsList]

theorem flatten_list_nonlist_leaf_witness :
    pyIsList (PyVal.tuple [PyVal.int 2, PyVal.int 3]) = false ∧
      flatten_list [PyVal.list [PyVal.int 1],
          PyVal.tuple [PyVal.int 2, PyVal.int 3], PyVal.list [PyVal.int 4]] =
        flatten_list [PyVal.list [PyVal.int 1]] ++
          PyVal.tuple [PyVal.int 2, PyVal.int 3] ::
            flatten_list [PyVal.list [PyVal.int 4]] := by
  refine ⟨rfl, ?_⟩
  exact flatten_list_nonlist_leaf [PyVal.list [PyVal.int 1]]
    [PyVal.list [PyVal.int 4]] (PyVal.tuple [PyVal.int 2, PyVal.int 3]) rfl

/-- Code points of a string (Python strings are sequences of code
points). -/
def pyCodes (s : String) : List ℕ :=
  s.toList.map Char.toNat

/-- Python `str.lower()` on one code point, for the ASCII range the
claims exercise: map `A`–`Z` to `a`–`z`, leave the rest unchanged. -/
def pyLower (n : ℕ) : ℕ :=
  if 65 ≤ n ∧ n ≤ 90 then n + 32 else n

/-- A character matched by the regex class `[a-z0-9]`. -/
def isTokChar (n : ℕ) : Bool :=
  decide ((97 ≤ n ∧ n ≤ 122) ∨ (48 ≤ n ∧ n ≤ 57))

/-- A word character for the regex `\b` boundary (`\w`), on the ASCII
range: letters, digits, underscore. (Python's `\w` also covers non-ASCII
letters and digits; the theorems below therefore restrict inputs to
ASCII.) -/
def isWordChar (n : ℕ) : Bool :=
  isTokChar n || decide ((65 ≤ n ∧ n ≤ 90) ∨ n = 95)

/-- Scanner equivalent to `re.findall(r"\b[a-z0-9]+\b", text)` on a
lower-cased ASCII text. `prevWord` records whether the previous character
was a word character; `run` is the current candidate token, reversed. A
candidate run only begins where `\b` holds (previous character not a word
character) and is abandoned — not emitted, not split — when the character
after it is a word character that `[a-z0-9]` does not match (such as
`_`), because no `\b` boundary exists there; the regex cannot backtrack
to a shorter match since every shorter end also sits between two word
characters. -/
def tokensAux (prevWord : Bool) (run : List ℕ) : List ℕ → List (List ℕ)
  | [] => if run.isEmpty then [] else [run.reverse]
  | c :: cs =>
    if isTokChar c then
      if run.isEmpty && prevWord then tokensAux true [] cs
      else tokensAux true (c :: run) cs
    else if isWordChar c then
      tokensAux true [] cs
    else
      if run.isEmpty then tokensAux false [] cs
      else run.reverse :: tokensAux false [] cs

/-- `tokenize_text(text)` from `preprocessing.py`:
`re.findall(r"\b[a-z0-9]+\b", text.lower())`. -/
def tokenize_text (text : List ℕ) : List (List ℕ) :=
  tokensAux false [] (text.map pyLower)

/-- Modelled from the spec: the maximal runs of characters matching
`[a-z0-9]`, every other character acting purely as a separator
(accumulator `run` holds the current maximal run, reversed). -/
def maximalRunsAux (run : List ℕ) : List ℕ → List (List ℕ)
  | [] => if run.isEmpty then [] else [run.reverse]
  | c :: cs =>
    if isTokChar c then maximalRunsAux (c :: run) cs
    else if run.isEmpty then maximalRunsAux [] cs
    else run.reverse :: maximalRunsAux [] cs

/-- Modelled from the spec: the maximal runs of ASCII lowercase letters
and digits of a text, with every other character a discarded separator. -/
def maximalRuns (l : List ℕ) : List (List ℕ) :=
  maximalRunsAux [] l

/-- C3 counterexample: on `"foo_bar"` the claim demands the maximal
alphanumeric runs `["foo", "bar"]` (underscore is punctuation and should
act purely as a separator), but `tokenize_text` returns no token at all:
`_` is a word character, so neither run is bounded by `\b`. -/
theorem tokenize_text_underscore_counterexample :
    tokenize_text (pyCodes "foo_bar") = [] ∧
      maximalRuns ((pyCodes "foo_bar").map pyLower) =
        [pyCodes "foo", pyCodes "bar"] ∧
      tokenize_text (pyCodes "foo_bar") ≠
        maximalRuns ((pyCodes "foo_bar").map pyLower) := by
  refine ⟨by decide, by decide, by decide⟩

theorem pyLower_word_eq_tok {n : ℕ} (h1 : n < 128) (h2 : n ≠ 95) :
    isWordChar (pyLower n) = isTokChar (pyLower n) := by
  by_cases hU : 65 ≤ n ∧ n ≤ 90
  · have hl : pyLower n = n + 32 := if_pos hU
    have ht : isTokChar (n + 32) = true := decide_eq_true (by omega)
    rw [hl]
    simp only [isWordChar, ht, Bool.true_or]
  · have hl : pyLower n = n := if_neg hU
    have hw : decide ((65 ≤ n ∧ n ≤ 90) ∨ n = 95) = false :=
      decide_eq_false (by omega)
    rw [hl]
    simp only [isWordChar, hw, Bool.or_false]

theorem tokensAux_eq_maximalRunsAux :
    ∀ l : List ℕ, (∀ c ∈ l, isWordChar c = isTokChar c) →
      (tokensAux false [] l = maximalRunsAux [] l ∧
        ∀ (b : Bool) (run : List ℕ), run ≠ [] →
          tokensAux b run l = maximalRunsAux run l) := by
  intro l
  induction l with
  | nil =>
    intro _
    refine ⟨rfl, ?_⟩
    intro b run hr
    obtain ⟨r, rs, rfl⟩ := List.exists_cons_of_ne_nil hr
    simp [tokensAux, maximalRunsAux]
  | cons c cs ih =>
    intro hW
    have hc : isWordChar c = isTokChar c := hW c (List.mem_cons_self _ _)
    have ihcs := ih (fun x hx => hW x (List.mem_cons_of_mem _ hx))
    constructor
    · by_cases ht : isTokChar c = true
      · simp only [tokensAux, maximalRunsAux, ht, if_pos, List.isEmpty_nil,
          Bool.and_false, if_false, Bool.false_and]
        exact ihcs.2 true [c] (List.cons_ne_nil c [])
      · have ht' : isTokChar c = false := by
          cases hcv : isTokChar c
          · rfl
          · exact absurd hcv ht
        have hw : isWordChar c = false := hc.trans ht'
        simp only [tokensAux, maximalRunsAux, ht', hw, List.isEmpty_nil,
          if_true, if_false, Bool.false_eq_true]
        exact ihcs.1
    · intro b run hr
      obtain ⟨r, rs, rfl⟩ := List.exists_cons_of_ne_nil hr
      by_cases ht : isTokChar c = true
      · simp only [tokensAux, maximalRunsAux, ht, if_true, List.isEmpty_cons,
          Bool.false_and, if_false, Bool.false_eq_true]
        exact ihcs.2 true (c :: r :: rs) (List.cons_ne_nil _ _)
      · have ht' : isTokChar c = false := by
          cases hcv : isTokChar c
          · rfl
          · exact absurd hcv ht
        have hw : isWordChar c = false := hc.trans ht'
        simp only [tokensAux, maximalRunsAux, ht', hw, List.isEmpty_cons,
          if_false, Bool.false_eq_true]
        rw [ihcs.1]

/-- C3 (amended): on ASCII input containing no underscore,
`tokenize_text` returns exactly the maximal runs of ASCII lowercase
letters and digits of the lowercased input, in order, every other
character acting purely as a separator. (On general input, runs adjacent
to a word character that `[a-z0-9]` does not match — underscore, or
non-ASCII letters and digits — are dropped entirely rather than split,
as the counterexample shows.) -/
theorem tokenize_text_maximal_runs (text : List ℕ)
    (h : ∀ c ∈ text, c < 128 ∧ c ≠ 95) :
    tokenize_text text = maximalRuns (text.map pyLower) := by
  apply (tokensAux_eq_maximalRunsAux (text.map pyLower) ?_).1
  intro c hcm
  obtain ⟨n, hn, rfl⟩ := List.mem_map.1 hcm
  exact pyLower_word_eq_tok (h n hn).1 (h n hn).2

theorem tokenize_text_maximal_runs_witness :
    (∀ c ∈ pyCodes "Hello, World! 123", c < 128 ∧ c ≠ 95) ∧
      tokenize_text (pyCodes "Hello, World! 123") =
        maximalRuns ((pyCodes "Hello, World! 123").map pyLower) ∧
      tokenize_text (pyCodes "Hello, World! 123") =
        [pyCodes "hello", pyCodes "world", pyCodes "123"] := by
  refine ⟨by decide, tokenize_text_maximal_runs _ (by decide), by decide⟩

/-- Internal state of the process-wide random generator after
`random.seed(seed)`. CPython seeds the global Mersenne Twister
deterministically from `seed`, making the subsequent stream of draws a
pure function of the seed; the claims depend only on that determinism,
not on the stream's values, so a linear congruential step stands in for
the twister. -/
def prngSeed (seed : ℕ) : ℕ :=
  seed % 4294967296

def prngNext (s : ℕ) : ℕ :=
  (1103515245 * s + 12345) % 2147483648

/-- One bounded draw of the generator (`_randbelow(n)`): a value below
`n` together with the successor state. -/
def randbelow (n : ℕ) (s : ℕ) : ℕ × ℕ :=
  let s' := prngNext s
  (s' % n, s')

/-- Swap of the elements at positions `i` and `j` of a list (a Python
`x[i], x[j] = x[j], x[i]`). -/
def listSwap {α : Type} (l : List α) (i j : ℕ) : List α :=
  match l[i]?, l[j]? with
  | some a, some b => (l.set i b).set j a
  | _, _ => l

/-- The loop of `random.shuffle(x)` (Fisher–Yates): for
`i in reversed(range(1, len(x)))`, draw `j = _randbelow(i + 1)` and swap
`x[i]` with `x[j]`. The counter argument is the current `i`. -/
def fyAux {α : Type} (st : ℕ) (l : List α) : ℕ → List α
  | 0 => l
  | k + 1 =>
    let p := randbelow (k + 2) st
    fyAux p.2 (listSwap l (k + 1) p.1) k

/-- `random.seed(seed)` followed by `random.shuffle(l)`. -/
def pyShuffle {α : Type} (seed : ℕ) (l : List α) : List α :=
  fyAux (prngSeed seed) l (l.length - 1)

/-- `shuffle_list(values, seed=42)` from `preprocessing.py`: copy the
input, seed the global generator, shuffle the copy in place, return it.
The seed parameter's default value in the source is `42`, so a call that
omits `seed` runs with seed `42`. -/
def shuffle_list {α : Type} (values : List α) (seed : ℕ := 42) : List α :=
  pyShuffle seed values

/-- C1 counterexample: no two calls of `shuffle_list` with the seed
argument omitted and the same input can return different outputs — with
the seed omitted the call runs with the default seed `42`, so the result
is a function of the input and the claimed non-reproducibility is
impossible. -/
theorem shuffle_list_default_deterministic_counterexample :
    ¬ ∃ (v r₁ r₂ : List ℕ), r₁ = shuffle_list v ∧ r₂ = shuffle_list v ∧
      r₁ ≠ r₂ := by
  rintro ⟨v, r₁, r₂, h₁, h₂, hne⟩
  exact hne (h₁.trans h₂.symm)

/-- C1 (amended): when the seed argument is omitted, `shuffle_list` runs
with the default seed `42`; every omitted-seed call equals the
corresponding `seed=42` call, and equal seeds with equal inputs give
equal permutations, so the omitted-seed call is just as reproducible as
an explicitly seeded one. -/
theorem shuffle_list_default_seed (v : List ℕ) :
    shuffle_list v = shuffle_list v 42 ∧
      ∀ s : ℕ, shuffle_list v s = pyShuffle s v :=
  ⟨rfl, fun _ => rfl⟩

/-- A heap of Python list objects: `cells` maps an address (an index)
to the list object stored there. Assignment of a list in Python copies a
reference, so mutation is only visible through such a heap. -/
structure PyHeap (α : Type) where
  cells : List (List α)

/-- Dereference an address. -/
def PyHeap.lookup {α : Type} (h : PyHeap α) (a : ℕ) : List α :=
  (h.cells[a]?).getD []

/-- Allocate a fresh list object (`values.copy()` allocates); returns the
new heap and the fresh address. -/
def PyHeap.alloc {α : Type} (h : PyHeap α) (l : List α) : PyHeap α × ℕ :=
  (⟨h.cells ++ [l]⟩, h.cells.length)

/-- Overwrite the object at an address (in-place mutation, as done by
`random.shuffle`). -/
def PyHeap.store {α : Type} (h : PyHeap α) (a : ℕ) (l : List α) : PyHeap α :=
  ⟨h.cells.set a l⟩

/-- The body of `shuffle_list` against the heap:
`shuffled = values.copy()` allocates a fresh cell holding a copy of the
input object, `random.seed(seed); random.shuffle(shuffled)` mutates that
fresh cell in place, and the address of the copy is returned. -/
def shuffle_list_heap {α : Type} (h : PyHeap α) (values : ℕ) (seed : ℕ) :
    PyHeap α × ℕ :=
  let c := h.alloc (h.lookup values)
  let h₂ := c.1.store c.2 (pyShuffle seed (c.1.lookup c.2))
  (h₂, c.2)

/-- C8: `shuffle_list` does not mutate its input: for every heap, every
valid address of the input list object and every seed, the input object
holds the same elements in the same order after the call as before it —
the permutation is produced on the freshly allocated copy. -/
theorem shuffle_list_heap_no_mutation {α : Type} (h : PyHeap α)
    (values seed : ℕ) (hv : values < h.cells.length) :
    ((shuffle_list_heap h values seed).1).lookup values = h.lookup values := by
  unfold shuffle_list_heap PyHeap.alloc PyHeap.store PyHeap.lookup
  simp only
  rw [List.getElem?_set_ne (by omega : h.cells.length ≠ values)]
  rw [List.getElem?_append_left hv]

theorem shuffle_list_heap_no_mutation_witness :
    (0 < (PyHeap.mk [[1, 2, 3]] : PyHeap ℕ).cells.length) ∧
      ((shuffle_list_heap (PyHeap.mk [[1, 2, 3]] : PyHeap ℕ) 0 42).1).lookup 0 =
        (PyHeap.mk [[1, 2, 3]] : PyHeap ℕ).lookup 0 :=
  ⟨by decide, shuffle_list_heap_no_mutation (PyHeap.mk [[1, 2, 3]]) 0 42
    (by decide)⟩
